import Mathlib

/-!
Verification of the dedup + routing core of the GTM-Automation pipeline.

Text is modelled as a list of Unicode code points (`List Nat`), mirroring
Python string semantics character by character for the ASCII range the
pipeline operates on.  The two regular expressions of
`enrichment/deduplicator.py` (`HONORIFICS` and `CO_SUFFIXES`) are embedded
as explicit backtracking matchers with the same ordered-alternation,
greedy-optional-dot and word-boundary behaviour as Python `re`.
-/

/-- Code points of a string literal; the bridge from Lean string literals to
the `List Nat` text model. -/
def S (s : String) : List Nat := s.data.map Char.toNat

/-- Python `\s` (ASCII range): space, tab, newline, carriage return,
vertical tab, form feed. -/
def pyIsSpaceB (c : Nat) : Bool :=
  c = 32 || c = 9 || c = 10 || c = 13 || c = 11 || c = 12

/-- Python `\w` (ASCII range): letters, digits, underscore. -/
def pyIsWordB (c : Nat) : Bool :=
  (48 ≤ c && c ≤ 57) || (65 ≤ c && c ≤ 90) || (97 ≤ c && c ≤ 122) || c = 95

/-- Characters kept by `re.sub(r"[^\w\s]", "", _)`. -/
def keepWS (c : Nat) : Bool := pyIsWordB c || pyIsSpaceB c

/-- Python `str.lower` on the ASCII range. -/
def pyLower (c : Nat) : Nat := if 65 ≤ c ∧ c ≤ 90 then c + 32 else c

/-- Drop trailing whitespace (the right half of Python `str.strip`). -/
def dropTrail (l : List Nat) : List Nat :=
  (l.reverse.dropWhile pyIsSpaceB).reverse

/-- Python `str.strip()`. -/
def pyStrip (l : List Nat) : List Nat := dropTrail (l.dropWhile pyIsSpaceB)

/-- Python `str.split()` (split on whitespace runs, no empty tokens),
fuel-indexed so that it is structurally recursive; `fuel ≥ l.length`
always suffices. -/
def pySplitF : Nat → List Nat → List (List Nat)
  | 0, _ => []
  | _ + 1, [] => []
  | fuel + 1, c :: cs =>
    if pyIsSpaceB c then pySplitF fuel cs
    else (c :: cs.takeWhile (fun d => !pyIsSpaceB d)) ::
      pySplitF fuel (cs.dropWhile (fun d => !pyIsSpaceB d))

/-- Python `str.split()`. -/
def pySplit (l : List Nat) : List (List Nat) := pySplitF l.length l

/-- Case-insensitive literal-prefix test: does `l` start with pattern `p`
(stored lowercase), as the `re.IGNORECASE` literal alternatives do. -/
def ciStarts : List Nat → List Nat → Bool
  | [], _ => true
  | _ :: _, [] => false
  | p :: ps, c :: cs => (pyLower c = p : Bool) && ciStarts ps cs

/-- The honorific alternatives of `HONORIFICS`, in the regex alternation
order `dr|mr|mrs|ms|prof|shri|smt`, each followed by an optional dot. -/
def HONORIFIC_WORDS : List (List Nat) :=
  [S "dr", S "mr", S "mrs", S "ms", S "prof", S "shri", S "smt"]

/-- Match one honorific alternative `p\.?\s+` at the start of `l` under the
regex backtracking rules (greedy optional dot, then mandatory greedy
whitespace); returns the matched length. -/
def tryHon (p : List Nat) (l : List Nat) : Option Nat :=
  if ciStarts p l then
    let rest := l.drop p.length
    if rest.head? = some 46 then
      let sp := (rest.drop 1).takeWhile pyIsSpaceB
      if sp.isEmpty then none else some (p.length + 1 + sp.length)
    else
      let sp := rest.takeWhile pyIsSpaceB
      if sp.isEmpty then none else some (p.length + sp.length)
  else none

/-- `HONORIFICS.sub("", l)`: the pattern is anchored with `^`, so at most
one substitution happens, at the start of the string. -/
def honSub (l : List Nat) : List Nat :=
  match HONORIFIC_WORDS.findSome? (fun p => tryHon p l) with
  | some n => l.drop n
  | none => l

/-- The suffix alternatives of `CO_SUFFIXES`, in regex alternation order;
the flag records which alternatives carry an optional trailing dot. -/
def SUFFIX_WORDS : List (List Nat × Bool) :=
  [(S "india", false), (S "pvt", true), (S "ltd", true), (S "limited", false),
   (S "private", false), (S "inc", true), (S "llc", false), (S "group", false),
   (S "technologies", false), (S "tech", false), (S "solutions", false)]

/-- Word boundary `\b` placed after a word character: holds at end of input
or before a non-word character. -/
def boundaryAfterWord (rest : List Nat) : Bool :=
  match rest with
  | [] => true
  | c :: _ => !pyIsWordB c

/-- Word boundary `\b` placed after a dot: holds only before a word
character. -/
def boundaryAfterDot (rest : List Nat) : Bool :=
  match rest with
  | [] => false
  | c :: _ => pyIsWordB c

/-- Match one suffix alternative (`w` or `w\.?`) followed by `\b` at the
start of `r`, with the greedy-dot backtracking of the regex engine;
returns the matched length. -/
def tryAlt (w : List Nat) (allowDot : Bool) (r : List Nat) : Option Nat :=
  if ciStarts w r then
    let rest := r.drop w.length
    if allowDot && rest.head? = some 46 then
      if boundaryAfterDot (rest.drop 1) then some (w.length + 1)
      else if boundaryAfterWord rest then some w.length
      else none
    else if boundaryAfterWord rest then some w.length
    else none
  else none

/-- First suffix alternative (in alternation order) matching at the start
of `r`. -/
def matchAlt (r : List Nat) : Option Nat :=
  SUFFIX_WORDS.findSome? (fun pd => tryAlt pd.1 pd.2 r)

/-- Match `\s+(suffix)\b` at the start of `l`: a nonempty greedy whitespace
run followed by a suffix alternative; returns the total matched length. -/
def matchLen (l : List Nat) : Option Nat :=
  let sp := l.takeWhile pyIsSpaceB
  if sp.isEmpty then none
  else (matchAlt (l.drop sp.length)).map (fun m => sp.length + m)

theorem matchLen_pos {l : List Nat} {n : Nat} (h : matchLen l = some n) : 0 < n := by
  unfold matchLen at h
  by_cases hsp : (List.takeWhile pyIsSpaceB l).isEmpty = true
  · simp [hsp] at h
  · simp only [hsp, if_false] at h
    rcases Option.map_eq_some'.mp h with ⟨m, _, hm⟩
    have hne : (List.takeWhile pyIsSpaceB l).length ≠ 0 := by
      simpa [List.isEmpty_iff, List.length_eq_zero] using hsp
    omega

/-- `CO_SUFFIXES.sub("", l)`: global substitution scanning left to right,
skipping past each non-overlapping match; fuel-indexed structural
recursion, `fuel ≥ l.length` always suffices. -/
def coSuffixSubF : Nat → List Nat → List Nat
  | 0, l => l
  | _ + 1, [] => []
  | fuel + 1, c :: cs =>
    match matchLen (c :: cs) with
    | some n => coSuffixSubF fuel ((c :: cs).drop n)
    | none => c :: coSuffixSubF fuel cs

/-- `CO_SUFFIXES.sub("", l)`. -/
def coSuffixSub (l : List Nat) : List Nat := coSuffixSubF l.length l

/-- `normalize_name` of `enrichment/deduplicator.py` on code points:
strip honorifics, remove punctuation, lowercase, trim. -/
def nnList (l : List Nat) : List Nat :=
  let s1 := honSub (pyStrip l)
  let s2 := s1.filter keepWS
  pyStrip (s2.map pyLower)

/-- `normalize_company` of `enrichment/deduplicator.py` on code points:
strip suffixes, remove punctuation, lowercase, take the first word. -/
def ncList (l : List Nat) : List Nat :=
  let c1 := coSuffixSub (pyStrip l)
  let c2 := c1.filter keepWS
  if pyStrip c2 = [] then []
  else (pySplit (pyStrip (c2.map pyLower))).headD []

/-! ## difflib.SequenceMatcher (no-junk case) -/

/-- Best match candidate of `difflib.SequenceMatcher.find_longest_match`:
start indices in `a` and `b` and the match size. -/
structure FLM where
  besti : Nat
  bestj : Nat
  bestsize : Nat
deriving DecidableEq

/-- Inner loop of `find_longest_match`: scan the candidate positions `j`
of row `i`, building the new `j2len` table and updating the best match. -/
def flmJ (ai : Nat) (b : List Nat) (old : Nat → Nat) (i : Nat) :
    List Nat → (Nat → Nat) → FLM → ((Nat → Nat) × FLM)
  | [], acc, st => (acc, st)
  | j :: js, acc, st =>
    if b.get? j = some ai then
      let k := (if j = 0 then 0 else old (j - 1)) + 1
      let acc2 := fun x => if x = j then k else acc x
      let st2 : FLM := if st.bestsize < k then ⟨i + 1 - k, j + 1 - k, k⟩ else st
      flmJ ai b old i js acc2 st2
    else flmJ ai b old i js acc st

/-- Outer loop of `find_longest_match` over the rows `i` of `a`. -/
def flmI (a b : List Nat) (blo bhi : Nat) :
    List Nat → (Nat → Nat) → FLM → FLM
  | [], _, st => st
  | i :: is, j2len, st =>
    let ai := (a.get? i).getD 0
    let p := flmJ ai b j2len i (List.range' blo (bhi - blo)) (fun _ => 0) st
    flmI a b blo bhi is p.1 p.2

/-- Backward extension loop of `find_longest_match` (junk-free case). -/
def extendBack (a b : List Nat) (alo blo : Nat) : Nat → FLM → FLM
  | 0, st => st
  | fuel + 1, st =>
    if alo < st.besti ∧ blo < st.bestj ∧ (a.get? (st.besti - 1)).isSome ∧
        a.get? (st.besti - 1) = b.get? (st.bestj - 1) then
      extendBack a b alo blo fuel ⟨st.besti - 1, st.bestj - 1, st.bestsize + 1⟩
    else st

/-- Forward extension loop of `find_longest_match` (junk-free case). -/
def extendFwd (a b : List Nat) (ahi bhi : Nat) : Nat → FLM → FLM
  | 0, st => st
  | fuel + 1, st =>
    if st.besti + st.bestsize < ahi ∧ st.bestj + st.bestsize < bhi ∧
        (a.get? (st.besti + st.bestsize)).isSome ∧
        a.get? (st.besti + st.bestsize) = b.get? (st.bestj + st.bestsize) then
      extendFwd a b ahi bhi fuel ⟨st.besti, st.bestj, st.bestsize + 1⟩
    else st

/-- `SequenceMatcher.find_longest_match` on the ranges
`a[alo:ahi]`, `b[blo:bhi]`; the strings here are short normalized names,
far below the autojunk threshold (`len(b) ≥ 200`), so the junk machinery
is vacuous. -/
def findLongestMatch (a b : List Nat) (alo ahi blo bhi : Nat) : FLM :=
  let st := flmI a b blo bhi (List.range' alo (ahi - alo)) (fun _ => 0) ⟨alo, blo, 0⟩
  extendFwd a b ahi bhi (ahi + 1) (extendBack a b alo blo (ahi + 1) st)

/-- Total size of all matching blocks (the recursive decomposition of
`get_matching_blocks`); fuel-indexed, `fuel ≥ ahi - alo + 1` suffices. -/
def matchSumF (a b : List Nat) : Nat → Nat → Nat → Nat → Nat → Nat
  | 0, _, _, _, _ => 0
  | fuel + 1, alo, ahi, blo, bhi =>
    let m := findLongestMatch a b alo ahi blo bhi
    if m.bestsize = 0 then 0
    else matchSumF a b fuel alo m.besti blo m.bestj + m.bestsize +
      matchSumF a b fuel (m.besti + m.bestsize) ahi (m.bestj + m.bestsize) bhi

/-- `similarity` of `enrichment/deduplicator.py`:
`SequenceMatcher(None, a, b).ratio() * 100`, as an exact rational
(`ratio` is `2*M/T`, and `1.0` when both strings are empty). -/
def similarity (a b : List Nat) : ℚ :=
  let total := a.length + b.length
  if total = 0 then 100
  else (200 * (matchSumF a b (a.length + 1) 0 a.length 0 b.length) : ℚ) / total

/-- Round half to even, as Python float formatting `:.0f` does. -/
def roundHalfEven (q : ℚ) : Int :=
  let f := ⌊q⌋
  if q - f < 1/2 then f
  else if (1 : ℚ)/2 < q - f then f + 1
  else if f % 2 = 0 then f else f + 1

/-- Python `f"{q:.0f}"`. -/
def fmtRound (q : ℚ) : String := toString (roundHalfEven q)

/-! ## enrichment/deduplicator.py : find_duplicates -/

/-- A contact record as consumed by the Deduplicator (the fields the core
reads; free-text fields are code-point lists). -/
structure DRecord where
  id : Nat
  name : List Nat
  company : List Nat
  icp_score : Nat
deriving DecidableEq

/-- A flagged duplicate: the demoted record plus `dup_reason` and
`kept_id`. -/
structure DupRec where
  record : DRecord
  dup_reason : String
  kept_id : Nat
deriving DecidableEq

/-- `DEDUP_SETTINGS["fuzzy_threshold"]` of `config/settings.py`. -/
def DEDUP_fuzzy_threshold : ℚ := 85

/-- `DEDUP_SETTINGS["merge_strategy"]` of `config/settings.py`. -/
def DEDUP_merge_strategy : String := "keep_first"

/-- `dedup_key`: `normalize_name(name) + "|" + normalize_company(company)`
(code point 124 is the bar). -/
def dedup_key (r : DRecord) : List Nat := nnList r.name ++ [124] ++ ncList r.company

/-- Python-dict lookup on the insertion-ordered key table. -/
def lookupKey : List (List Nat × Nat) → List Nat → Option Nat
  | [], _ => none
  | (k, v) :: rest, key => if k = key then some v else lookupKey rest key

/-- Python-dict store `d[key] = v`: update in place if present, else
append (dicts preserve insertion order). -/
def setKeyAssoc : List (List Nat × Nat) → List Nat → Nat → List (List Nat × Nat)
  | [], key, v => [(key, v)]
  | (k, w) :: rest, key, v =>
    if k = key then (k, v) :: rest else (k, w) :: setKeyAssoc rest key v

/-- `existing_key.split("|", 1)`. -/
def splitBar (k : List Nat) : List Nat × List Nat :=
  (k.takeWhile (fun c => c != 124), (k.dropWhile (fun c => c != 124)).drop 1)

/-- The fuzzy-match scan of step 2 of `find_duplicates`: walk the kept
keys in insertion order, compare only same-company-root entries, and stop
at the first one whose name similarity reaches the threshold. -/
def findFuzzy (threshold : ℚ) (keys : List (List Nat × Nat))
    (normName normCo : List Nat) : Option (Nat × ℚ) :=
  keys.findSome? (fun kv =>
    let parts := splitBar kv.1
    if parts.2 = normCo then
      let sim := similarity normName parts.1
      if threshold ≤ sim then some (kv.2, sim) else none
    else none)

/-- Loop state of `find_duplicates`: `kept_indices`, `dup_records` and the
insertion-ordered `processed_keys`. -/
structure DupState where
  kept : List Nat
  dups : List DupRec
  keys : List (List Nat × Nat)

/-- `df.loc[i]` on the positionally indexed frame. -/
def getRec (df : List DRecord) (i : Nat) : DRecord := (df.get? i).getD ⟨0, [], [], 0⟩

/-- One iteration of the `find_duplicates` row loop, mirroring the three
steps of the source: exact key match, fuzzy name match, keep (with the
`keep_highest_icp` swap branch as written). -/
def dedupStep (strategy : String) (threshold : ℚ) (df : List DRecord)
    (st : DupState) (ir : Nat × DRecord) : DupState :=
  let i := ir.1
  let row := ir.2
  let key := dedup_key row
  match lookupKey st.keys key with
  | some kept_idx =>
    { st with dups := st.dups ++ [⟨row, "exact_match", (getRec df kept_idx).id⟩] }
  | none =>
    let norm_name := nnList row.name
    let norm_company := ncList row.company
    match findFuzzy threshold st.keys norm_name norm_company with
    | some (kept_idx, sim) =>
      { st with dups := st.dups ++
          [⟨row, "fuzzy_match_" ++ fmtRound sim ++ "pct", (getRec df kept_idx).id⟩] }
    | none =>
      if strategy = "keep_highest_icp" ∧ (lookupKey st.keys key).isSome then
        let existing_idx := (lookupKey st.keys key).getD 0
        if (getRec df existing_idx).icp_score < row.icp_score then
          { kept := st.kept.erase existing_idx ++ [i],
            dups := st.dups ++ [⟨getRec df existing_idx, "replaced_by_higher_icp", row.id⟩],
            keys := setKeyAssoc st.keys key i }
        else st
      else
        { st with kept := st.kept ++ [i], keys := setKeyAssoc st.keys key i }

/-- `find_duplicates` of `enrichment/deduplicator.py`: single pass in input
order; returns `(clean_df, duplicates_df)`. -/
def findDuplicates (strategy : String) (threshold : ℚ) (records : List DRecord) :
    List DRecord × List DupRec :=
  let df := records
  let final := df.enum.foldl (dedupStep strategy threshold df) ⟨[], [], []⟩
  (final.kept.map (getRec df), final.dups)

/-! ## routing/lead_router.py -/

/-- A roster member of `TEAM`. -/
structure Member where
  name : String
  email : String
  capacity : Nat
deriving DecidableEq

/-- `TEAM["Senior AE"]`. -/
def TEAM_SeniorAE : List Member :=
  [⟨"Priya Nair", "priya@company.co", 30⟩, ⟨"Vikram Sethi", "vikram@company.co", 30⟩]

/-- `TEAM["AE"]`. -/
def TEAM_AE : List Member :=
  [⟨"Sneha Kapoor", "sneha@company.co", 50⟩, ⟨"Rahul Desai", "rahul@company.co", 50⟩,
   ⟨"Meera Iyer", "meera@company.co", 50⟩]

/-- `TEAM["SDR"]`. -/
def TEAM_SDR : List Member :=
  [⟨"Arjun Sharma", "arjun@company.co", 60⟩, ⟨"Divya Menon", "divya@company.co", 60⟩,
   ⟨"Karan Bose", "karan@company.co", 60⟩]

/-- `self.team.get(role, self.team["SDR"])`. -/
def teamLookup : String → List Member
  | "Senior AE" => TEAM_SeniorAE
  | "AE" => TEAM_AE
  | "SDR" => TEAM_SDR
  | _ => TEAM_SDR

/-- The whole roster. -/
def ROSTER : List Member := TEAM_SeniorAE ++ TEAM_AE ++ TEAM_SDR

/-- `ROUTING_RULES.get(seniority, {}).get("owner_role", "SDR")` with the
table of `config/settings.py`. -/
def ownerRole : String → String
  | "C-Suite" => "Senior AE"
  | "VP/Director" => "AE"
  | "Manager/IC" => "SDR"
  | _ => "SDR"

/-- `ROUTING_RULES.get(seniority, {}).get("sender_level", "SDR")`. -/
def senderLevel : String → String
  | "C-Suite" => "Leadership"
  | "VP/Director" => "AE"
  | "Manager/IC" => "SDR"
  | _ => "SDR"

/-- A sender persona of `SENDER_PERSONA`. -/
structure Persona where
  name : String
  title : String
  email : String
deriving DecidableEq

/-- `SENDER_PERSONA.get(level, SENDER_PERSONA["SDR"])`. -/
def senderPersona : String → Persona
  | "Leadership" => ⟨"Rohan Mehta", "VP of Partnerships", "rohan@company.co"⟩
  | "AE" => ⟨"Sneha Kapoor", "Account Executive", "sneha@company.co"⟩
  | _ => ⟨"Arjun Sharma", "Sales Development Rep", "arjun@company.co"⟩

/-- `ICP_THRESHOLDS["high"]` of `config/settings.py`. -/
def ICP_high : Nat := 5

/-- A contact as consumed by `LeadRouter.route`: `id` via `str(...)`,
`company` free text, `seniority_tier` with default `"Manager/IC"` already
resolved, `icp_score` with default `0`.  A missing company is the empty
string, identically to how `str(contact.get("company",""))` resolves it. -/
structure Contact where
  id : String
  company : List Nat
  seniority_tier : String
  icp_score : Nat
deriving DecidableEq

/-- The routing-result dict built by `LeadRouter.route`. -/
structure RouteResult where
  owner_name : String
  owner_email : String
  owner_role : String
  sender_name : String
  sender_title : String
  sender_email : String
  routing_status : String
  leadership_review : String
  routing_notes : String
  capacity_overflow : Bool
deriving DecidableEq

/-- The default result fields `route` starts from. -/
def baseResult : RouteResult :=
  ⟨"", "", "", "", "", "", "assigned", "NO", "", false⟩

/-- The mutable per-run state of a `LeadRouter` instance:
`assignment_count` (a `defaultdict(int)`), `company_owner`, and
`sequence_ids`. -/
structure RouterState where
  counts : String → Nat
  companyOwner : List Nat → Option String
  seqIds : List String

/-- A fresh `LeadRouter()`. -/
def freshRouter : RouterState := ⟨fun _ => 0, fun _ => none, []⟩

/-- The owner-assignment dict returned by `assign_owner` (the
`capacity_overflow` key is absent, i.e. `false`, on the normal path). -/
structure Assignment where
  owner_name : String
  owner_email : String
  owner_role : String
  capacity_overflow : Bool
deriving DecidableEq

/-- `LeadRouter.assign_owner`: stable-sort the pool by current assigned
count (Python `sorted` is stable), pick the first member under capacity;
if none, overflow to the first member of the unsorted pool.  `none` models
an exception (impossible: every pool of `TEAM` is nonempty). -/
def assignOwner (s : RouterState) (seniority : String) :
    Option (Assignment × RouterState) :=
  let role := ownerRole seniority
  let members := teamLookup role
  let sortedM := members.insertionSort (fun m1 m2 => s.counts m1.name ≤ s.counts m2.name)
  match sortedM.find? (fun m => decide (s.counts m.name < m.capacity)) with
  | some m =>
    some (⟨m.name, m.email, role, false⟩,
      { s with counts := fun n => if n = m.name then s.counts n + 1 else s.counts n })
  | none =>
    match members.head? with
    | some m0 =>
      some (⟨m0.name, m0.email, role, true⟩,
        { s with counts := fun n => if n = m0.name then s.counts n + 1 else s.counts n })
    | none => none

/-- `str(contact.get("company","")).lower().split()[0]`: `none` models the
`IndexError` raised when the company is empty or whitespace. -/
def companyRootOf (company : List Nat) : Option (List Nat) :=
  (pySplit (company.map pyLower)).head?

/-- `LeadRouter.check_company_conflict`; `none` models the `IndexError`
propagating out of the company-root computation. -/
def checkCompanyConflict (s : RouterState) (c : Contact) : Option (Bool × String) :=
  match companyRootOf c.company with
  | none => none
  | some root =>
    match s.companyOwner root with
    | some existing => some (true, existing)
    | none => some (false, "")

/-- `LeadRouter.needs_leadership_review`. -/
def needsLeadershipReview (c : Contact) : Bool :=
  decide (ICP_high ≤ c.icp_score) && decide (c.seniority_tier = "C-Suite")

/-- `LeadRouter.route`: gates, assignment, sender, review flag, commit.
`none` models an uncaught exception; the state it would leave behind is
the input state, since the only raise point precedes every mutation. -/
def route (s : RouterState) (c : Contact) : Option (RouteResult × RouterState) :=
  if c.id ∈ s.seqIds then
    some ({ baseResult with
        routing_status := "skip_in_sequence",
        routing_notes := "Contact already in an active sequence" }, s)
  else
    match checkCompanyConflict s c with
    | none => none
    | some (true, existing) =>
      some ({ baseResult with
          routing_status := "skip_company_conflict",
          routing_notes := "Company already owned by " ++ existing,
          owner_name := existing }, s)
    | some (false, _) =>
      match assignOwner s c.seniority_tier with
      | none => none
      | some (asg, s1) =>
        let sender := senderPersona (senderLevel c.seniority_tier)
        let review := needsLeadershipReview c
        let res : RouteResult :=
          { baseResult with
            owner_name := asg.owner_name,
            owner_email := asg.owner_email,
            owner_role := asg.owner_role,
            capacity_overflow := asg.capacity_overflow,
            sender_name := sender.name,
            sender_title := sender.title,
            sender_email := sender.email,
            leadership_review := if review then "YES" else "NO",
            routing_notes :=
              if review then "ICP 5 + C-Suite — leadership must approve before send" else "" }
        match companyRootOf c.company with
        | none => none
        | some root =>
          some (res, { s1 with
            companyOwner := fun r => if r = root then some res.owner_name else s1.companyOwner r,
            seqIds := c.id :: s1.seqIds })

/-- Route a batch in order, as the loop of `route_all` does; an exception
aborts the run, leaving the earlier results and the state already built. -/
def routeList (s : RouterState) : List Contact → List RouteResult × RouterState
  | [] => ([], s)
  | c :: cs =>
    match route s c with
    | none => ([], s)
    | some (r, s1) =>
      let p := routeList s1 cs
      (r :: p.1, p.2)

/-- Python string comparison (code-point lexicographic). -/
def lexLe : List Nat → List Nat → Bool
  | [], _ => true
  | _ :: _, [] => false
  | a :: as, b :: bs => if a < b then true else if a = b then lexLe as bs else false

/-- The processing order of `route_all`:
`df.sort_values(["icp_score","seniority_tier"], ascending=[False, True])`,
i.e. a stable sort by descending `icp_score` and, within ties, ascending
raw `seniority_tier` string. -/
def contactLe (a b : Contact) : Prop :=
  b.icp_score < a.icp_score ∨
    (a.icp_score = b.icp_score ∧ lexLe (S a.seniority_tier) (S b.seniority_tier) = true)

instance : DecidableRel contactLe := fun a b => by
  unfold contactLe; infer_instance

/-- The sorted processing order of `route_all` (pandas multi-key sorting
is stable, as is this insertion sort). -/
def sortContacts (cs : List Contact) : List Contact := cs.insertionSort contactLe

/-- `route_all`: sort, then route each row of the batch in order. -/
def routeAll (cs : List Contact) : List RouteResult × RouterState :=
  routeList freshRouter (sortContacts cs)

/-! ## Object-identity model for the frame claim on find_duplicates -/

/-- A Python heap of DataFrame objects; each frame cell is a record plus
the optional `_key` column. -/
structure PyHeap where
  dfs : List (List (DRecord × Option (List Nat)))

/-- Allocate a fresh DataFrame object; returns its reference. -/
def halloc (h : PyHeap) (d : List (DRecord × Option (List Nat))) : PyHeap × Nat :=
  (⟨h.dfs ++ [d]⟩, h.dfs.length)

/-- Dereference a DataFrame object. -/
def hget (h : PyHeap) (r : Nat) : List (DRecord × Option (List Nat)) :=
  (h.dfs.get? r).getD []

/-- In-place write to a DataFrame object. -/
def hset (h : PyHeap) (r : Nat) (d : List (DRecord × Option (List Nat))) : PyHeap :=
  ⟨h.dfs.set r d⟩

/-- `find_duplicates` with object identity made explicit: `df.copy()`
allocates, `.reset_index(drop=True)` allocates, the `df["_key"] = ...`
column write mutates the local copy in place, and everything afterwards
only reads the local copy.  The caller's object is never written. -/
def findDuplicatesHeap (strategy : String) (threshold : ℚ) (h : PyHeap) (input : Nat) :
    PyHeap × (List DRecord × List DupRec) :=
  let p1 := halloc h (hget h input)
  let p2 := halloc p1.1 (hget p1.1 p1.2)
  let h3 := hset p2.1 p2.2 ((hget p2.1 p2.2).map (fun rc => (rc.1, some (dedup_key rc.1))))
  let records := (hget h3 p2.2).map (fun rc => rc.1)
  (h3, findDuplicates strategy threshold records)

/-! ## Claim theorems -/

/-- C1: the spec says `route` never raises, normalizing malformed company
values to the empty string; in the code, an empty or whitespace-only
company reaches `str(...).lower().split()[0]`, which raises `IndexError`
(modelled by `none`) before any routing result is produced. -/
theorem C1_route_raises_on_empty_company :
    route freshRouter ⟨"1", S "", "C-Suite", 5⟩ = none ∧
    route freshRouter ⟨"2", S "   ", "Manager/IC", 3⟩ = none :=
  ⟨rfl, rfl⟩

/-- The two records of Scenario A of the spec. -/
def scenarioA : List DRecord :=
  [⟨1, S "Dr. Rohini Srivathsa", S "Microsoft India", 0⟩,
   ⟨2, S "Rohini Srivathsa", S "Microsoft", 0⟩]

/-- C2 counterexample: on Scenario A the second record is flagged with
`dup_reason = "exact_match"`, not `"fuzzy_match_100pct"` as the claim
states: both records normalize to the same identity key, so the exact
gate fires before any fuzzy comparison. -/
theorem C2_scenarioA_counterexample :
    (findDuplicates "keep_first" 85 scenarioA).2.map DupRec.dup_reason = ["exact_match"] ∧
    ¬ (findDuplicates "keep_first" 85 scenarioA).2.map DupRec.dup_reason = ["fuzzy_match_100pct"] := by
  decide

/-- C2 amended: on Scenario A with threshold 85, the second record is
flagged as a duplicate with `dup_reason = "exact_match"` (the two
identity keys coincide after normalization, so the exact gate fires
before the fuzzy comparison), `kept_id` is the first record's id, and
only the first record stays in the clean set. -/
theorem C2_scenarioA_amended :
    (findDuplicates "keep_first" 85 scenarioA).1 =
      [⟨1, S "Dr. Rohini Srivathsa", S "Microsoft India", 0⟩] ∧
    (findDuplicates "keep_first" 85 scenarioA).2 =
      [⟨⟨2, S "Rohini Srivathsa", S "Microsoft", 0⟩, "exact_match", 1⟩] := by
  decide

/-- C4: under `keep_highest_icp`, a later record with the same identity
key and strictly higher `icp_score` is caught by the exact-match gate and
flagged `"exact_match"` with the first record kept; the swap branch of
step 3 requires `key in processed_keys` inside a path only reachable when
the key is absent, so the documented demotion
(`"replaced_by_higher_icp"`) can never execute. -/
theorem C4_keep_highest_icp_dead :
    (findDuplicates "keep_highest_icp" 85 [⟨1, S "A B", S "X", 1⟩, ⟨2, S "A B", S "X", 5⟩]).1 =
      [⟨1, S "A B", S "X", 1⟩] ∧
    (findDuplicates "keep_highest_icp" 85 [⟨1, S "A B", S "X", 1⟩, ⟨2, S "A B", S "X", 5⟩]).2 =
      [⟨⟨2, S "A B", S "X", 5⟩, "exact_match", 1⟩] := by
  decide

theorem dedupStep_count (strategy : String) (threshold : ℚ) (df : List DRecord)
    (st : DupState) (ir : Nat × DRecord) :
    (dedupStep strategy threshold df st ir).kept.length +
      (dedupStep strategy threshold df st ir).dups.length =
      st.kept.length + st.dups.length + 1 := by
  unfold dedupStep
  cases h : lookupKey st.keys (dedup_key ir.2) with
  | some k => simp [h]; omega
  | none =>
    cases hf : findFuzzy threshold st.keys (nnList ir.2.name) (ncList ir.2.company) with
    | some p => simp [h, hf]; omega
    | none => simp [h, hf]; omega

theorem foldl_dedup_count (strategy : String) (threshold : ℚ) (df : List DRecord) :
    ∀ (l : List (Nat × DRecord)) (st : DupState),
      (l.foldl (dedupStep strategy threshold df) st).kept.length +
        (l.foldl (dedupStep strategy threshold df) st).dups.length =
        st.kept.length + st.dups.length + l.length := by
  intro l
  induction l with
  | nil => intro st; simp
  | cons a t ih =>
    intro st
    simp only [List.foldl_cons, List.length_cons]
    rw [ih]
    have h := dedupStep_count strategy threshold df st a
    omega

/-- C3: for every input batch, every fuzzy threshold and every merge
strategy (in particular both keep_first and keep_highest_icp), the clean
set size plus the duplicates set size after find_duplicates equals the
input size: no record is dropped from both output sets. -/
theorem C3_conservation (strategy : String) (threshold : ℚ) (records : List DRecord) :
    (findDuplicates strategy threshold records).1.length +
      (findDuplicates strategy threshold records).2.length = records.length := by
  unfold findDuplicates
  simp only [List.length_map]
  rw [foldl_dedup_count]
  simp [List.enum_length]

theorem lexLe_total : ∀ a b : List Nat, lexLe a b = true ∨ lexLe b a = true := by
  intro a
  induction a with
  | nil => intro b; left; rfl
  | cons x xs ih =>
    intro b
    cases b with
    | nil => right; rfl
    | cons y ys =>
      by_cases hxy : x < y
      · left; simp [lexLe, hxy]
      · by_cases hyx : y < x
        · right; simp [lexLe, hyx]
        · have hxy2 : x = y := by omega
          subst hxy2
          rcases ih ys with h | h
          · left; simp [lexLe, h]
          · right; simp [lexLe, h]

theorem lexLe_trans : ∀ a b c : List Nat,
    lexLe a b = true → lexLe b c = true → lexLe a c = true := by
  intro a
  induction a with
  | nil => intro b c _ _; rfl
  | cons x xs ih =>
    intro b c hab hbc
    cases b with
    | nil => simp [lexLe] at hab
    | cons y ys =>
      cases c with
      | nil => simp [lexLe] at hbc
      | cons z zs =>
        simp only [lexLe] at hab hbc ⊢
        by_cases hxy : x < y
        · by_cases hyz : y < z
          · simp [show x < z by omega]
          · simp only [hyz, if_false] at hbc
            by_cases hyz2 : y = z
            · subst hyz2; simp [hxy]
            · simp [hyz2] at hbc
        · simp only [hxy, if_false] at hab
          by_cases hxy2 : x = y
          · subst hxy2
            simp only [if_neg (lt_irrefl x), if_pos rfl] at hab
            by_cases hxz : x < z
            · simp [hxz]
            · simp only [hxz, if_false] at hbc ⊢
              by_cases hxz2 : x = z
              · subst hxz2
                simp only [if_pos rfl] at hbc ⊢
                exact ih ys zs hab hbc
              · simp [hxz, hxz2] at hbc
          · simp [hxy2] at hab

instance : IsTotal Contact contactLe :=
  ⟨fun a b => by
    unfold contactLe
    rcases Nat.lt_trichotomy a.icp_score b.icp_score with h | h | h
    · right; left; exact h
    · rcases lexLe_total (S a.seniority_tier) (S b.seniority_tier) with hl | hl
      · left; right; exact ⟨h, hl⟩
      · right; right; exact ⟨h.symm, hl⟩
    · left; left; exact h⟩

instance : IsTrans Contact contactLe :=
  ⟨fun a b c hab hbc => by
    unfold contactLe at hab hbc ⊢
    rcases hab with h1 | ⟨h1, l1⟩
    · rcases hbc with h2 | ⟨h2, l2⟩
      · left; omega
      · left; omega
    · rcases hbc with h2 | ⟨h2, l2⟩
      · left; omega
      · right; exact ⟨by omega, lexLe_trans _ _ _ l1 l2⟩⟩

/-- The seniority-tier rank order asserted by the spec (C-Suite first,
then VP/Director, then Manager/IC). -/
def tierRank : String → Nat
  | "C-Suite" => 0
  | "VP/Director" => 1
  | "Manager/IC" => 2
  | _ => 3

/-- The processing order asserted by claim C9: descending icp_score,
ties in ascending tier rank. -/
def claimedOrder (a b : Contact) : Prop :=
  b.icp_score < a.icp_score ∨
    (a.icp_score = b.icp_score ∧ tierRank a.seniority_tier ≤ tierRank b.seniority_tier)

instance : DecidableRel claimedOrder := fun a b => by
  unfold claimedOrder; infer_instance

/-- C9 counterexample: route_all sorts ties in icp_score by the raw
seniority_tier string ascending, so with equal scores a Manager/IC
contact is processed before a VP/Director contact, contradicting the
claimed C-Suite, VP/Director, Manager/IC rank order. -/
theorem C9_order_counterexample :
    sortContacts [⟨"1", S "A", "VP/Director", 3⟩, ⟨"2", S "B", "Manager/IC", 3⟩] =
      [⟨"2", S "B", "Manager/IC", 3⟩, ⟨"1", S "A", "VP/Director", 3⟩] ∧
    ¬ claimedOrder (⟨"2", S "B", "Manager/IC", 3⟩ : Contact) ⟨"1", S "A", "VP/Director", 3⟩ ∧
    ¬ (sortContacts [⟨"1", S "A", "VP/Director", 3⟩, ⟨"2", S "B", "Manager/IC", 3⟩]).Sorted claimedOrder := by
  refine ⟨by decide, by decide, ?_⟩
  intro hs
  rw [show sortContacts [⟨"1", S "A", "VP/Director", 3⟩, ⟨"2", S "B", "Manager/IC", 3⟩] =
      [⟨"2", S "B", "Manager/IC", 3⟩, ⟨"1", S "A", "VP/Director", 3⟩] from by decide] at hs
  rcases List.sorted_cons.mp hs with ⟨h2, _⟩
  have h3 := h2 ⟨"1", S "A", "VP/Director", 3⟩ (by simp)
  revert h3
  decide

/-- C9 amended: route_all processes contacts in descending icp_score
order and, among equal scores, in ascending lexicographic order of the
raw seniority_tier string (which puts C-Suite before Manager/IC before
VP/Director); the processing order is a stable sort of the input batch
under exactly that relation. -/
theorem C9_order_amended (cs : List Contact) :
    (sortContacts cs).Perm cs ∧ (sortContacts cs).Sorted contactLe ∧
    routeAll cs = routeList freshRouter (sortContacts cs) :=
  ⟨List.perm_insertionSort contactLe cs, List.sorted_insertionSort contactLe cs, rfl⟩

/-- A contact that routes successfully from a fresh router. -/
def c5Contact : Contact := ⟨"7", S "Acme Corp", "C-Suite", 5⟩

/-- The router state after routing that contact once. -/
def c5State : RouterState := ((route freshRouter c5Contact).map Prod.snd).getD freshRouter

/-- C5 counterexample: after a contact is routed, its company-root is
mapped, yet routing the very same contact again yields
routing_status skip_in_sequence (the sequence gate fires first), not
skip_company_conflict as the claim predicts for every later contact
whose company-root is already mapped. -/
theorem C5_company_owner_counterexample :
    c5State.companyOwner (S "acme") = some "Priya Nair" ∧
    (route c5State c5Contact).map (fun p => p.1.routing_status) = some "skip_in_sequence" ∧
    ¬ (route c5State c5Contact).map (fun p => p.1.routing_status) = some "skip_company_conflict" := by
  refine ⟨rfl, by decide, by decide⟩

theorem assignOwner_frame {s : RouterState} {t : String} {a : Assignment} {s2 : RouterState}
    (h : assignOwner s t = some (a, s2)) :
    s2.companyOwner = s.companyOwner ∧ s2.seqIds = s.seqIds := by
  unfold assignOwner at h
  simp only [] at h
  split at h
  · simp only [Option.some.injEq, Prod.mk.injEq] at h
    obtain ⟨-, rfl⟩ := h
    exact ⟨rfl, rfl⟩
  · split at h
    · simp only [Option.some.injEq, Prod.mk.injEq] at h
      obtain ⟨-, rfl⟩ := h
      exact ⟨rfl, rfl⟩
    · simp at h

theorem route_preserves_owner {s : RouterState} {c : Contact} {r : RouteResult}
    {s1 : RouterState} {root : List Nat} {o : String}
    (hro : s.companyOwner root = some o)
    (h : route s c = some (r, s1)) : s1.companyOwner root = some o := by
  unfold route at h
  split at h
  · simp only [Option.some.injEq, Prod.mk.injEq] at h
    obtain ⟨-, rfl⟩ := h
    exact hro
  · rename_i hseq
    split at h
    · simp at h
    · rename_i hcc
      simp only [Option.some.injEq, Prod.mk.injEq] at h
      obtain ⟨-, rfl⟩ := h
      exact hro
    · rename_i existing hcc
      split at h
      · simp at h
      · rename_i asg sA hasg
        split at h
        · simp at h
        · rename_i root2 hcr
          simp only [Option.some.injEq, Prod.mk.injEq] at h
          obtain ⟨-, rfl⟩ := h
          have hframe := assignOwner_frame hasg
          have hne : root ≠ root2 := by
            intro hEq
            subst hEq
            unfold checkCompanyConflict at hcc
            simp only [hcr, hro] at hcc
            simp at hcc
          simp only [hne, if_neg hne]
          rw [hframe.1]
          exact hro

theorem routeList_preserves_owner {root : List Nat} {o : String} :
    ∀ (cs : List Contact) (s : RouterState), s.companyOwner root = some o →
      (routeList s cs).2.companyOwner root = some o := by
  intro cs
  induction cs with
  | nil => intro s h; exact h
  | cons c t ih =>
    intro s h
    unfold routeList
    cases hr : route s c with
    | none => exact h
    | some p =>
      obtain ⟨r1, s1⟩ := p
      simp only
      exact ih s1 (route_preserves_owner h hr)

/-- C5 amended: within a single run the company_owner map is write-once:
any mapping present before a sequence of route calls is still present,
unchanged, afterwards; and a later contact whose company-root is already
mapped and that is not itself already in an active sequence receives
routing_status skip_company_conflict with owner_name reporting the
existing owner and with the router state unchanged (no new assignment). -/
theorem C5_company_owner_amended :
    (∀ (cs : List Contact) (s : RouterState) (root : List Nat) (o : String),
        s.companyOwner root = some o → (routeList s cs).2.companyOwner root = some o)
  ∧ (∀ (s : RouterState) (c : Contact) (root : List Nat) (o : String),
        companyRootOf c.company = some root → s.companyOwner root = some o →
        c.id ∉ s.seqIds →
        route s c = some ({ baseResult with
            routing_status := "skip_company_conflict",
            routing_notes := "Company already owned by " ++ o,
            owner_name := o }, s)) := by
  constructor
  · intro cs s root o h
    exact routeList_preserves_owner cs s h
  · intro s c root o hcr hro hseq
    unfold route
    rw [if_neg hseq]
    unfold checkCompanyConflict
    simp only [hcr, hro]

theorem C5_company_owner_witness :
    c5State.companyOwner (S "acme") = some "Priya Nair" ∧
    (routeList c5State [⟨"9", S "Foo Bar", "Manager/IC", 2⟩]).2.companyOwner (S "acme") =
      some "Priya Nair" ∧
    route c5State ⟨"9", S "Acme Ltd", "Manager/IC", 2⟩ = some ({ baseResult with
        routing_status := "skip_company_conflict",
        routing_notes := "Company already owned by Priya Nair",
        owner_name := "Priya Nair" }, c5State) :=
  ⟨rfl,
   C5_company_owner_amended.1 [⟨"9", S "Foo Bar", "Manager/IC", 2⟩] c5State (S "acme")
     "Priya Nair" rfl,
   C5_company_owner_amended.2 c5State ⟨"9", S "Acme Ltd", "Manager/IC", 2⟩ (S "acme")
     "Priya Nair" rfl rfl (by decide)⟩

theorem teamLookup_sub_roster (role : String) : ∀ m ∈ teamLookup role, m ∈ ROSTER := by
  unfold teamLookup
  split <;> decide

theorem roster_names_unique :
    ∀ m1 ∈ ROSTER, ∀ m2 ∈ ROSTER, m1.name = m2.name → m1 = m2 := by
  decide

theorem teamLookup_ne_nil (role : String) : teamLookup role ≠ [] := by
  unfold teamLookup
  split <;> decide

theorem assignOwner_isSome (s : RouterState) (tier : String) :
    (assignOwner s tier).isSome := by
  unfold assignOwner
  simp only []
  split
  · rfl
  · cases hm : (teamLookup (ownerRole tier)).head? with
    | none => exact absurd (List.head?_eq_none_iff.mp hm) (teamLookup_ne_nil (ownerRole tier))
    | some m0 => simp [hm]

def capsOK (s : RouterState) : Prop := ∀ m ∈ ROSTER, s.counts m.name ≤ m.capacity

theorem assignOwner_caps {s : RouterState} {t : String} {a : Assignment} {s2 : RouterState}
    (h : assignOwner s t = some (a, s2)) (hov : a.capacity_overflow = false)
    (hs : capsOK s) : capsOK s2 := by
  unfold assignOwner at h
  simp only [] at h
  split at h
  · rename_i m hfind
    simp only [Option.some.injEq, Prod.mk.injEq] at h
    obtain ⟨ha, rfl⟩ := h
    have hmem : m ∈ ROSTER := by
      have h1 : m ∈ List.insertionSort
          (fun m1 m2 => s.counts m1.name ≤ s.counts m2.name) (teamLookup (ownerRole t)) :=
        List.mem_of_find?_eq_some hfind
      exact teamLookup_sub_roster _ m ((List.mem_insertionSort _).mp h1)
    have hlt : s.counts m.name < m.capacity := by
      have := List.find?_some hfind
      simpa using this
    intro m2 hm2
    by_cases hn : m2.name = m.name
    · have heq : m2 = m := roster_names_unique m2 hm2 m hmem hn
      subst heq
      simp only
      rw [if_pos trivial]
      omega
    · simp only
      rw [if_neg hn]
      exact hs m2 hm2
  · split at h
    · simp only [Option.some.injEq, Prod.mk.injEq] at h
      obtain ⟨ha, rfl⟩ := h
      rw [← ha] at hov
      simp at hov
    · simp at h

theorem route_caps {s : RouterState} {c : Contact} {r : RouteResult} {s1 : RouterState}
    (h : route s c = some (r, s1)) (hov : r.capacity_overflow = false)
    (hs : capsOK s) : capsOK s1 := by
  unfold route at h
  split at h
  · simp only [Option.some.injEq, Prod.mk.injEq] at h
    obtain ⟨-, rfl⟩ := h
    exact hs
  · split at h
    · simp at h
    · simp only [Option.some.injEq, Prod.mk.injEq] at h
      obtain ⟨-, rfl⟩ := h
      exact hs
    · split at h
      · simp at h
      · rename_i asg sA hasg
        split at h
        · simp at h
        · simp only [Option.some.injEq, Prod.mk.injEq] at h
          obtain ⟨hr, rfl⟩ := h
          have hcaps : capsOK sA := by
            apply assignOwner_caps hasg ?_ hs
            rw [← hr] at hov
            simpa using hov
          intro m hm
          exact hcaps m hm

theorem routeList_caps : ∀ (cs : List Contact) (s : RouterState), capsOK s →
    (∀ r ∈ (routeList s cs).1, r.capacity_overflow = false) → capsOK (routeList s cs).2 := by
  intro cs
  induction cs with
  | nil => intro s h _; exact h
  | cons c t ih =>
    intro s h hall
    unfold routeList
    cases hr : route s c with
    | none => exact h
    | some p =>
      obtain ⟨r1, s1⟩ := p
      simp only
      apply ih s1 (route_caps hr ?_ h)
      · intro r2 hr2
        apply hall
        unfold routeList
        rw [hr]
        simp only [List.mem_cons]
        right
        exact hr2
      · apply hall
        unfold routeList
        rw [hr]
        simp

/-- C6: capacity is respected except through the observable overflow
fallback, and the router never refuses an assignment: (1) in any run from
a fresh router in which no produced result carries capacity_overflow,
every owner's final assigned count is at most their declared capacity;
(2) whenever every member of the required pool is at capacity,
assign_owner assigns to the first member of the pool and sets
capacity_overflow = true; (3) assign_owner always returns an assignment. -/
theorem C6_capacity :
    (∀ cs : List Contact, (∀ r ∈ (routeList freshRouter cs).1, r.capacity_overflow = false) →
        ∀ m ∈ ROSTER, (routeList freshRouter cs).2.counts m.name ≤ m.capacity)
  ∧ (∀ (s : RouterState) (tier : String),
        (∀ m ∈ teamLookup (ownerRole tier), m.capacity ≤ s.counts m.name) →
        ∃ s1, assignOwner s tier =
          some (⟨((teamLookup (ownerRole tier)).headD ⟨"", "", 0⟩).name,
                 ((teamLookup (ownerRole tier)).headD ⟨"", "", 0⟩).email,
                 ownerRole tier, true⟩, s1))
  ∧ (∀ (s : RouterState) (tier : String), (assignOwner s tier).isSome) := by
  refine ⟨?_, ?_, assignOwner_isSome⟩
  · intro cs hall
    exact routeList_caps cs freshRouter (fun m _ => Nat.zero_le _) hall
  · intro s tier hfull
    unfold assignOwner
    simp only []
    have hnone : List.find? (fun m => decide (s.counts m.name < m.capacity))
        (List.insertionSort (fun m1 m2 => s.counts m1.name ≤ s.counts m2.name)
          (teamLookup (ownerRole tier))) = none := by
      rw [List.find?_eq_none]
      intro m hm
      have hmem := (List.mem_insertionSort _).mp hm
      have := hfull m hmem
      simp only [decide_eq_true_eq]
      omega
    rw [hnone]
    cases hm : (teamLookup (ownerRole tier)).head? with
    | none => exact absurd (List.head?_eq_none_iff.mp hm) (teamLookup_ne_nil (ownerRole tier))
    | some m0 =>
      have hhd : (teamLookup (ownerRole tier)).headD ⟨"", "", 0⟩ = m0 := by
        cases hl : teamLookup (ownerRole tier) with
        | nil => exact absurd hl (teamLookup_ne_nil _)
        | cons x xs => rw [hl] at hm; simp at hm; simp [hl, hm]
      simp only [hm, hhd]
      exact ⟨_, rfl⟩

/-- C6 witness: the three parts applied at concrete inputs. -/
theorem C6_capacity_witness :
    (∀ m ∈ ROSTER,
      (routeList freshRouter [⟨"1", S "Acme", "C-Suite", 5⟩]).2.counts m.name ≤ m.capacity)
  ∧ (∃ s1, assignOwner ⟨fun _ => 60, fun _ => none, []⟩ "C-Suite" =
        some (⟨"Priya Nair", "priya@company.co", "Senior AE", true⟩, s1))
  ∧ (assignOwner freshRouter "Manager/IC").isSome := by
  refine ⟨C6_capacity.1 [⟨"1", S "Acme", "C-Suite", 5⟩] (by decide), ?_,
    C6_capacity.2.2 freshRouter "Manager/IC"⟩
  have h := C6_capacity.2.1 ⟨fun _ => 60, fun _ => none, []⟩ "C-Suite" (by decide)
  exact h

/-- C10: find_duplicates does not modify its input frame: in the
object-identity model, the only in-place write (the `_key` column
assignment) targets the freshly allocated copy, so the caller's object is
unchanged by the call. -/
theorem C10_input_frame (strategy : String) (threshold : ℚ) (h : PyHeap) (input : Nat)
    (v : List (DRecord × Option (List Nat))) (hv : h.dfs.get? input = some v) :
    ((findDuplicatesHeap strategy threshold h input).1).dfs.get? input = some v := by
  have hlt : input < h.dfs.length := List.get?_eq_some.mp hv |>.1
  unfold findDuplicatesHeap halloc hset
  simp only
  rw [List.get?_eq_getElem?] at hv ⊢
  rw [List.getElem?_set_ne (by simp only [List.length_append]; omega)]
  rw [List.getElem?_append_left (by simp only [List.length_append]; omega),
    List.getElem?_append_left hlt]
  exact hv

/-- C10 witness: the frame theorem applied to a concrete one-object heap. -/
theorem C10_input_frame_witness :
    ((findDuplicatesHeap "keep_first" 85 ⟨[[(⟨1, S "A", S "X", 3⟩, none)]]⟩ 0).1).dfs.get? 0 =
      some [(⟨1, S "A", S "X", 3⟩, none)] :=
  C10_input_frame "keep_first" 85 ⟨[[(⟨1, S "A", S "X", 3⟩, none)]]⟩ 0
    [(⟨1, S "A", S "X", 3⟩, none)] rfl

theorem pyIsSpaceB_iff (c : Nat) : pyIsSpaceB c = true ↔
    (c = 32 ∨ c = 9 ∨ c = 10 ∨ c = 13 ∨ c = 11 ∨ c = 12) := by
  simp [pyIsSpaceB]
  tauto

theorem pyIsWordB_iff (c : Nat) : pyIsWordB c = true ↔
    ((48 ≤ c ∧ c ≤ 57) ∨ (65 ≤ c ∧ c ≤ 90) ∨ (97 ≤ c ∧ c ≤ 122) ∨ c = 95) := by
  simp [pyIsWordB]
  tauto

theorem pyLower_idem (c : Nat) : pyLower (pyLower c) = pyLower c := by
  unfold pyLower
  by_cases h : 65 ≤ c ∧ c ≤ 90
  · rw [if_pos h, if_neg (by omega)]
  · rw [if_neg h, if_neg h]

theorem pyIsSpaceB_pyLower (c : Nat) : pyIsSpaceB (pyLower c) = pyIsSpaceB c := by
  apply Bool.eq_iff_iff.mpr
  unfold pyLower
  split <;> simp only [pyIsSpaceB_iff] <;> omega

theorem pyIsWordB_pyLower (c : Nat) : pyIsWordB (pyLower c) = pyIsWordB c := by
  apply Bool.eq_iff_iff.mpr
  unfold pyLower
  split <;> simp only [pyIsWordB_iff] <;> omega

theorem keepWS_pyLower (c : Nat) : keepWS (pyLower c) = keepWS c := by
  unfold keepWS
  rw [pyIsSpaceB_pyLower, pyIsWordB_pyLower]

theorem word_not_space {c : Nat} (h : pyIsWordB c = true) : pyIsSpaceB c = false := by
  rw [pyIsWordB_iff] at h
  apply Bool.not_eq_true _ |>.mp
  rw [pyIsSpaceB_iff]
  omega

theorem keepWS_not_word_space {c : Nat} (h : keepWS c = true) (hw : pyIsWordB c = false) :
    pyIsSpaceB c = true := by
  unfold keepWS at h
  rw [hw] at h
  simpa using h

theorem keepWS_no_dot {c : Nat} (h : keepWS c = true) : c ≠ 46 := by
  intro he
  subst he
  simp [keepWS, pyIsWordB, pyIsSpaceB] at h

theorem length_dropWhile_le (q : Nat → Bool) : ∀ l : List Nat, (l.dropWhile q).length ≤ l.length := by
  intro l
  induction l with
  | nil => simp
  | cons c cs ih =>
    rw [List.dropWhile_cons]
    split
    · exact Nat.le_succ_of_le ih
    · simp

theorem dropWhile_head_false {q : Nat → Bool} :
    ∀ (l : List Nat) {c : Nat} {cs : List Nat}, l.dropWhile q = c :: cs → q c = false := by
  intro l
  induction l with
  | nil => intro c cs h; simp at h
  | cons a t ih =>
    intro c cs h
    rw [List.dropWhile_cons] at h
    split at h
    · exact ih h
    · rename_i hq
      obtain ⟨rfl, -⟩ := List.cons.injEq .. |>.mp h
      simpa using hq

theorem pySplitF_congr : ∀ (f1 : Nat) (l : List Nat) (f2 : Nat), l.length ≤ f1 → l.length ≤ f2 →
    pySplitF f1 l = pySplitF f2 l := by
  intro f1
  induction f1 with
  | zero =>
    intro l f2 h1 _
    have : l = [] := List.length_eq_zero.mp (Nat.le_zero.mp h1)
    subst this
    cases f2 <;> rfl
  | succ f ih =>
    intro l f2 h1 h2
    cases l with
    | nil => cases f2 <;> rfl
    | cons c cs =>
      cases f2 with
      | zero => simp at h2
      | succ f2' =>
        simp only [pySplitF]
        split
        · exact ih cs f2' (by simpa using h1) (by simpa using h2)
        · rw [ih (cs.dropWhile (fun d => !pyIsSpaceB d)) f2'
            (le_trans (length_dropWhile_le _ cs) (by simpa using h1))
            (le_trans (length_dropWhile_le _ cs) (by simpa using h2))]

theorem pySplit_cons_space {c : Nat} {cs : List Nat} (h : pyIsSpaceB c = true) :
    pySplit (c :: cs) = pySplit cs := by
  unfold pySplit
  simp only [List.length_cons, pySplitF, h, if_true]

theorem pySplit_cons_not_space {c : Nat} {cs : List Nat} (h : pyIsSpaceB c = false) :
    pySplit (c :: cs) =
      (c :: cs.takeWhile (fun d => !pyIsSpaceB d)) ::
        pySplit (cs.dropWhile (fun d => !pyIsSpaceB d)) := by
  unfold pySplit
  simp only [List.length_cons, pySplitF, h]
  rw [if_neg (by simp)]
  rw [pySplitF_congr cs.length (cs.dropWhile (fun d => !pyIsSpaceB d)) _
    (length_dropWhile_le _ cs) (le_refl _)]

theorem pySplit_head? : ∀ l : List Nat,
    (pySplit l).head? = match l.dropWhile pyIsSpaceB with
      | [] => none
      | c :: cs => some (c :: cs.takeWhile (fun d => !pyIsSpaceB d)) := by
  intro l
  induction l with
  | nil => rfl
  | cons a t ih =>
    by_cases h : pyIsSpaceB a = true
    · rw [pySplit_cons_space h, List.dropWhile_cons]
      simp only [h, if_true]
      exact ih
    · have hf : pyIsSpaceB a = false := by simpa using h
      rw [pySplit_cons_not_space hf, List.dropWhile_cons]
      simp only [hf, if_false, Bool.false_eq_true, List.head?_cons]

theorem dropTrail_nil : dropTrail ([] : List Nat) = [] := rfl

theorem dropTrail_cons_nonspace {c : Nat} {cs : List Nat} (h : pyIsSpaceB c = false) :
    dropTrail (c :: cs) = c :: dropTrail cs := by
  unfold dropTrail
  rw [List.reverse_cons, List.dropWhile_append]
  split
  · rename_i he
    have : cs.reverse.dropWhile pyIsSpaceB = [] := by simpa [List.isEmpty_iff] using he
    rw [this, List.dropWhile_cons]
    simp [h]
  · rw [List.reverse_append]
    simp

theorem dropTrail_cons (c : Nat) (cs : List Nat) :
    dropTrail (c :: cs) = [] ∨ dropTrail (c :: cs) = c :: dropTrail cs := by
  by_cases h : pyIsSpaceB c = true
  · unfold dropTrail
    rw [List.reverse_cons, List.dropWhile_append]
    split
    · left
      rw [List.dropWhile_cons]
      simp [h]
    · right
      rw [List.reverse_append]
      simp [dropTrail]
  · exact Or.inr (dropTrail_cons_nonspace (by simpa using h))

theorem takeWhile_dropTrail : ∀ l : List Nat,
    (dropTrail l).takeWhile (fun d => !pyIsSpaceB d) = l.takeWhile (fun d => !pyIsSpaceB d) := by
  intro l
  induction l with
  | nil => rfl
  | cons c cs ih =>
    by_cases h : pyIsSpaceB c = true
    · rcases dropTrail_cons c cs with h1 | h1
      · rw [h1]
        simp [List.takeWhile_cons, h]
      · rw [h1]
        simp [List.takeWhile_cons, h]
    · have hf : pyIsSpaceB c = false := by simpa using h
      rw [dropTrail_cons_nonspace hf]
      simp only [List.takeWhile_cons, hf]
      simp only [Bool.not_false, if_true]
      rw [ih]

theorem dropWhile_sp_dropWhile (l : List Nat) :
    (l.dropWhile pyIsSpaceB).dropWhile pyIsSpaceB = l.dropWhile pyIsSpaceB := by
  cases h : l.dropWhile pyIsSpaceB with
  | nil => rfl
  | cons c cs =>
    rw [List.dropWhile_cons]
    simp [dropWhile_head_false l h]

theorem dropTrail_idem (l : List Nat) : dropTrail (dropTrail l) = dropTrail l := by
  unfold dropTrail
  rw [List.reverse_reverse, dropWhile_sp_dropWhile]

theorem dropWhile_sp_dropTrail (l : List Nat) :
    (dropTrail (l.dropWhile pyIsSpaceB)).dropWhile pyIsSpaceB =
      dropTrail (l.dropWhile pyIsSpaceB) := by
  cases h : l.dropWhile pyIsSpaceB with
  | nil => rfl
  | cons c cs =>
    have hc : pyIsSpaceB c = false := dropWhile_head_false l h
    rw [dropTrail_cons_nonspace hc, List.dropWhile_cons]
    simp [hc]

theorem pyStrip_idem (l : List Nat) : pyStrip (pyStrip l) = pyStrip l := by
  unfold pyStrip
  rw [dropWhile_sp_dropTrail, dropTrail_idem]

theorem pyStrip_of_no_space {l : List Nat} (h : ∀ c ∈ l, pyIsSpaceB c = false) :
    pyStrip l = l := by
  unfold pyStrip dropTrail
  have h1 : l.dropWhile pyIsSpaceB = l := by
    cases l with
    | nil => rfl
    | cons c cs => rw [List.dropWhile_cons]; simp [h c (by simp)]
  rw [h1]
  have h2 : l.reverse.dropWhile pyIsSpaceB = l.reverse := by
    cases hr : l.reverse with
    | nil => rfl
    | cons c cs =>
      rw [List.dropWhile_cons]
      have : c ∈ l := by
        rw [← List.mem_reverse, hr]
        simp
      simp [h c this]
  rw [h2, List.reverse_reverse]

theorem mem_dropTrail {c : Nat} {l : List Nat} (h : c ∈ dropTrail l) : c ∈ l := by
  unfold dropTrail at h
  rw [List.mem_reverse] at h
  rw [← List.mem_reverse]
  exact (List.dropWhile_sublist _).subset h

theorem mem_pyStrip {c : Nat} {l : List Nat} (h : c ∈ pyStrip l) : c ∈ l :=
  (List.dropWhile_sublist _).subset (mem_dropTrail h)

theorem matchLen_nonspace {c : Nat} {cs : List Nat} (h : pyIsSpaceB c = false) :
    matchLen (c :: cs) = none := by
  unfold matchLen
  rw [List.takeWhile_cons]
  simp [h]

theorem coSuffixSubF_congr : ∀ (f1 : Nat) (l : List Nat) (f2 : Nat),
    l.length ≤ f1 → l.length ≤ f2 → coSuffixSubF f1 l = coSuffixSubF f2 l := by
  intro f1
  induction f1 with
  | zero =>
    intro l f2 h1 _
    have : l = [] := List.length_eq_zero.mp (Nat.le_zero.mp h1)
    subst this
    cases f2 <;> rfl
  | succ f ih =>
    intro l f2 h1 h2
    cases l with
    | nil => cases f2 <;> rfl
    | cons c cs =>
      cases f2 with
      | zero => simp at h2
      | succ f2' =>
        simp only [List.length_cons] at h1 h2
        simp only [coSuffixSubF]
        cases hm : matchLen (c :: cs) with
        | some n =>
          have hn := matchLen_pos hm
          apply ih
          · simp only [List.length_drop, List.length_cons]
            omega
          · simp only [List.length_drop, List.length_cons]
            omega
        | none =>
          rw [ih cs f2' (by omega) (by omega)]

theorem coSuffixSub_nomatch {c : Nat} {cs : List Nat} (h : matchLen (c :: cs) = none) :
    coSuffixSub (c :: cs) = c :: coSuffixSub cs := by
  unfold coSuffixSub
  simp only [List.length_cons, coSuffixSubF, h]

theorem coSuffixSub_match {c : Nat} {cs : List Nat} {n : Nat} (h : matchLen (c :: cs) = some n) :
    coSuffixSub (c :: cs) = coSuffixSub ((c :: cs).drop n) := by
  have hn := matchLen_pos h
  unfold coSuffixSub
  simp only [List.length_cons, coSuffixSubF, h]
  apply coSuffixSubF_congr
  · simp only [List.length_drop, List.length_cons]
    omega
  · exact le_refl _

theorem mem_coSuffixSubF : ∀ (f : Nat) (l : List Nat) (c : Nat), c ∈ coSuffixSubF f l → c ∈ l := by
  intro f
  induction f with
  | zero => intro l c h; simpa [coSuffixSubF] using h
  | succ f ih =>
    intro l c h
    cases l with
    | nil => simp [coSuffixSubF] at h
    | cons a cs =>
      simp only [coSuffixSubF] at h
      cases hm : matchLen (a :: cs) with
      | some n =>
        rw [hm] at h
        exact List.mem_of_mem_drop (ih _ _ h)
      | none =>
        rw [hm] at h
        rcases List.mem_cons.mp h with rfl | h2
        · simp
        · exact List.mem_cons_of_mem a (ih _ _ h2)

theorem mem_coSuffixSub {c : Nat} {l : List Nat} (h : c ∈ coSuffixSub l) : c ∈ l :=
  mem_coSuffixSubF l.length l c h

theorem coSuffixSub_of_no_space : ∀ {l : List Nat}, (∀ c ∈ l, pyIsSpaceB c = false) →
    coSuffixSub l = l := by
  intro l
  induction l with
  | nil => intro _; rfl
  | cons c cs ih =>
    intro h
    rw [coSuffixSub_nomatch (matchLen_nonspace (h c (by simp)))]
    rw [ih (fun d hd => h d (List.mem_cons_of_mem c hd))]

theorem tryAlt_boundary {w : List Nat} {d : Bool} {r : List Nat} {m : Nat}
    (hdot : ∀ c ∈ r, c ≠ 46) (h : tryAlt w d r = some m) :
    r.drop m = [] ∨ ∃ e es, r.drop m = e :: es ∧ pyIsWordB e = false := by
  unfold tryAlt at h
  split at h
  · simp only [] at h
    split at h
    · rename_i hcond
      exfalso
      simp only [Bool.and_eq_true, decide_eq_true_eq] at hcond
      have h46 : (r.drop w.length).head? = some 46 := hcond.2
      cases hl : r.drop w.length with
      | nil => rw [hl] at h46; simp at h46
      | cons e es =>
        rw [hl] at h46
        simp only [List.head?_cons, Option.some.injEq] at h46
        subst h46
        exact hdot 46 (List.mem_of_mem_drop (by rw [hl]; simp)) rfl
    · split at h
      · rename_i hb
        simp only [Option.some.injEq] at h
        subst h
        unfold boundaryAfterWord at hb
        cases hl : r.drop w.length with
        | nil => left; rfl
        | cons e es =>
          right
          refine ⟨e, es, rfl, ?_⟩
          rw [hl] at hb
          simpa using hb
      · simp at h
  · simp at h

theorem matchAlt_boundary {r : List Nat} {m : Nat}
    (hdot : ∀ c ∈ r, c ≠ 46) (h : matchAlt r = some m) :
    r.drop m = [] ∨ ∃ e es, r.drop m = e :: es ∧ pyIsWordB e = false := by
  rcases List.exists_of_findSome?_eq_some h with ⟨⟨w, d⟩, -, hw⟩
  exact tryAlt_boundary hdot hw

theorem matchLen_after {l : List Nat} {n : Nat} (hws : ∀ c ∈ l, keepWS c = true)
    (h : matchLen l = some n) :
    l.drop n = [] ∨ ∃ e es, l.drop n = e :: es ∧ pyIsSpaceB e = true := by
  have hdot : ∀ c ∈ l, c ≠ 46 := fun c hc => keepWS_no_dot (hws c hc)
  unfold matchLen at h
  by_cases hsp : (List.takeWhile pyIsSpaceB l).isEmpty = true
  · simp [hsp] at h
  · simp only [hsp, if_false] at h
    rcases Option.map_eq_some'.mp h with ⟨m, hma, hm⟩
    subst hm
    have hdrop : l.drop ((List.takeWhile pyIsSpaceB l).length + m) =
        (l.drop (List.takeWhile pyIsSpaceB l).length).drop m := by
      rw [List.drop_drop]
    have hb := matchAlt_boundary
      (fun c hc => hdot c (List.mem_of_mem_drop hc)) hma
    rcases hb with h1 | ⟨e, es, he, hew⟩
    · left
      rw [hdrop]
      exact h1
    · right
      refine ⟨e, es, ?_, ?_⟩
      · rw [hdrop]
        exact he
      · have heMem : e ∈ l := by
          have h1 : e ∈ (l.drop (List.takeWhile pyIsSpaceB l).length).drop m := by
            rw [he]
            simp
          exact List.mem_of_mem_drop (List.mem_of_mem_drop h1)
        exact keepWS_not_word_space (hws e heMem) hew

theorem ftOK_aux : ∀ (k : Nat) (l : List Nat), l.length ≤ k →
    (∀ c ∈ l, keepWS c = true) →
    (coSuffixSub l).takeWhile (fun d => !pyIsSpaceB d) =
      l.takeWhile (fun d => !pyIsSpaceB d) := by
  intro k
  induction k with
  | zero =>
    intro l h1 _
    have : l = [] := List.length_eq_zero.mp (Nat.le_zero.mp h1)
    subst this
    rfl
  | succ k ih =>
    intro l h1 hws
    cases l with
    | nil => rfl
    | cons c cs =>
      simp only [List.length_cons] at h1
      by_cases hc : pyIsSpaceB c = true
      · rw [List.takeWhile_cons]
        simp only [hc, Bool.not_true]
        rw [if_neg (by simp)]
        cases hm : matchLen (c :: cs) with
        | none =>
          rw [coSuffixSub_nomatch hm, List.takeWhile_cons]
          simp [hc]
        | some n =>
          rw [coSuffixSub_match hm]
          have hn := matchLen_pos hm
          have hlen : ((c :: cs).drop n).length ≤ k := by
            simp only [List.length_drop, List.length_cons]
            omega
          have hws2 : ∀ d ∈ (c :: cs).drop n, keepWS d = true :=
            fun d hd => hws d (List.mem_of_mem_drop hd)
          rw [ih _ hlen hws2]
          rcases matchLen_after hws hm with h2 | ⟨e, es, he, hesp⟩
          · rw [h2]
            rfl
          · rw [he, List.takeWhile_cons]
            simp [hesp]
      · have hcf : pyIsSpaceB c = false := by simpa using hc
        rw [coSuffixSub_nomatch (matchLen_nonspace hcf)]
        rw [List.takeWhile_cons, List.takeWhile_cons]
        simp only [hcf, Bool.not_false, if_true]
        rw [ih cs (by omega) (fun d hd => hws d (List.mem_cons_of_mem c hd))]

theorem ftOK {l : List Nat} (hws : ∀ c ∈ l, keepWS c = true) :
    (coSuffixSub l).takeWhile (fun d => !pyIsSpaceB d) =
      l.takeWhile (fun d => !pyIsSpaceB d) :=
  ftOK_aux l.length l (le_refl _) hws

theorem dropWhile_congr_pred {p q : Nat → Bool} (h : ∀ c, p c = q c) :
    ∀ l : List Nat, l.dropWhile p = l.dropWhile q := by
  intro l
  induction l with
  | nil => rfl
  | cons a t ih => rw [List.dropWhile_cons, List.dropWhile_cons, h a, ih]

theorem takeWhile_congr_pred {p q : Nat → Bool} (h : ∀ c, p c = q c) :
    ∀ l : List Nat, l.takeWhile p = l.takeWhile q := by
  intro l
  induction l with
  | nil => rfl
  | cons a t ih => rw [List.takeWhile_cons, List.takeWhile_cons, h a, ih]

theorem dropWhile_sp_map_lower (l : List Nat) :
    (l.map pyLower).dropWhile pyIsSpaceB = (l.dropWhile pyIsSpaceB).map pyLower := by
  rw [List.dropWhile_map]
  rw [@dropWhile_congr_pred (pyIsSpaceB ∘ pyLower) pyIsSpaceB
    (fun c => by simp [Function.comp, pyIsSpaceB_pyLower]) l]

theorem takeWhile_nsp_map_lower (l : List Nat) :
    (l.map pyLower).takeWhile (fun d => !pyIsSpaceB d) =
      (l.takeWhile (fun d => !pyIsSpaceB d)).map pyLower := by
  rw [List.takeWhile_map]
  rw [@takeWhile_congr_pred ((fun d => !pyIsSpaceB d) ∘ pyLower) (fun d => !pyIsSpaceB d)
    (fun c => by simp [Function.comp, pyIsSpaceB_pyLower]) l]

theorem dropTrail_map_lower (l : List Nat) :
    dropTrail (l.map pyLower) = (dropTrail l).map pyLower := by
  unfold dropTrail
  rw [← List.map_reverse, dropWhile_sp_map_lower, List.map_reverse]

theorem pyStrip_map_lower (l : List Nat) :
    pyStrip (l.map pyLower) = (pyStrip l).map pyLower := by
  unfold pyStrip
  rw [dropWhile_sp_map_lower, dropTrail_map_lower]

/-- The first whitespace-separated token of a string. -/
def firstWord (l : List Nat) : List Nat :=
  (l.dropWhile pyIsSpaceB).takeWhile (fun d => !pyIsSpaceB d)

theorem dropWhile_sp_ne_nil {l : List Nat} (h : ∃ c ∈ l, pyIsSpaceB c = false) :
    l.dropWhile pyIsSpaceB ≠ [] := by
  induction l with
  | nil => simp at h
  | cons a t ih =>
    rw [List.dropWhile_cons]
    rcases h with ⟨c, hc, hcf⟩
    rcases List.mem_cons.mp hc with rfl | hct
    · rw [hcf]
      simp
    · split
      · exact ih ⟨c, hct, hcf⟩
      · simp

theorem pySplit_head?_of_ex {l : List Nat} (h : ∃ c ∈ l, pyIsSpaceB c = false) :
    (pySplit l).head? = some (firstWord l) := by
  cases hl : l.dropWhile pyIsSpaceB with
  | nil => exact absurd hl (dropWhile_sp_ne_nil h)
  | cons c cs =>
    have hc : pyIsSpaceB c = false := dropWhile_head_false l hl
    rw [pySplit_head? l, hl]
    unfold firstWord
    rw [hl, List.takeWhile_cons]
    simp [hc]

theorem firstWord_pyStrip {l : List Nat} (h : ∃ c ∈ l, pyIsSpaceB c = false) :
    firstWord (pyStrip l) = firstWord l := by
  unfold pyStrip firstWord
  cases hl : l.dropWhile pyIsSpaceB with
  | nil => exact absurd hl (dropWhile_sp_ne_nil h)
  | cons c cs =>
    have hc : pyIsSpaceB c = false := dropWhile_head_false l hl
    rw [dropTrail_cons_nonspace hc, List.dropWhile_cons]
    simp only [hc, Bool.false_eq_true, if_false]
    rw [List.takeWhile_cons, List.takeWhile_cons]
    simp only [hc, Bool.not_false, if_true]
    rw [takeWhile_dropTrail]

theorem firstWord_map_lower (l : List Nat) :
    firstWord (l.map pyLower) = (firstWord l).map pyLower := by
  unfold firstWord
  rw [dropWhile_sp_map_lower, takeWhile_nsp_map_lower]

/-- C7 counterexample: on the company string "Uber, Inc" the router's
company root is "uber," (no punctuation stripping, no suffix stripping)
while normalize_company yields "uber"; the two normalizations differ. -/
theorem C7_root_counterexample :
    companyRootOf (S "Uber, Inc") = some (S "uber,") ∧
    ncList (S "Uber, Inc") = S "uber" ∧
    ¬ companyRootOf (S "Uber, Inc") = some (ncList (S "Uber, Inc")) := by
  decide

/-- C7 amended: the router's company root agrees with the Deduplicator's
normalize_company on every company string built from word characters and
whitespace only (no punctuation) that contains at least one word
character; in general the two normalizations differ (the router strips
neither punctuation nor corporate suffixes). -/
theorem C7_root_amended (l : List Nat) (hws : ∀ c ∈ l, keepWS c = true)
    (hw : ∃ c ∈ l, pyIsWordB c = true) :
    companyRootOf l = some (ncList l) := by
  obtain ⟨w0, hw0mem, hw0⟩ := hw
  have hnsl : ∃ c ∈ l, pyIsSpaceB c = false := ⟨w0, hw0mem, word_not_space hw0⟩
  have hnsl2 : ∃ c ∈ l.map pyLower, pyIsSpaceB c = false := by
    refine ⟨pyLower w0, List.mem_map_of_mem _ hw0mem, ?_⟩
    rw [pyIsSpaceB_pyLower]
    exact word_not_space hw0
  have hLHS : companyRootOf l = some (firstWord (l.map pyLower)) := by
    unfold companyRootOf
    exact pySplit_head?_of_ex hnsl2
  have hwsx : ∀ c ∈ pyStrip l, keepWS c = true := fun c hc => hws c (mem_pyStrip hc)
  obtain ⟨cH, csT, hxeq, hcH⟩ :
      ∃ cH csT, pyStrip l = cH :: csT ∧ pyIsSpaceB cH = false := by
    cases hl : l.dropWhile pyIsSpaceB with
    | nil => exact absurd hl (dropWhile_sp_ne_nil hnsl)
    | cons c cs =>
      have hc := dropWhile_head_false l hl
      refine ⟨c, dropTrail cs, ?_, hc⟩
      unfold pyStrip
      rw [hl, dropTrail_cons_nonspace hc]
  have hws1 : ∀ c ∈ coSuffixSub (pyStrip l), keepWS c = true :=
    fun c hc => hwsx c (mem_coSuffixSub hc)
  have hfilter : (coSuffixSub (pyStrip l)).filter keepWS = coSuffixSub (pyStrip l) :=
    List.filter_eq_self.mpr hws1
  obtain ⟨c1t, hc1eq⟩ : ∃ c1t, coSuffixSub (pyStrip l) = cH :: c1t := by
    rw [hxeq, coSuffixSub_nomatch (matchLen_nonspace hcH)]
    exact ⟨_, rfl⟩
  have hstrip_c1 : pyStrip (coSuffixSub (pyStrip l)) ≠ [] := by
    rw [hc1eq]
    unfold pyStrip
    rw [List.dropWhile_cons]
    simp only [hcH, Bool.false_eq_true, if_false]
    rw [dropTrail_cons_nonspace hcH]
    simp
  have hRHS : ncList l = firstWord (l.map pyLower) := by
    unfold ncList
    simp only [hfilter]
    rw [if_neg hstrip_c1]
    have hns_c1 : ∃ c ∈ coSuffixSub (pyStrip l), pyIsSpaceB c = false := by
      rw [hc1eq]; exact ⟨cH, by simp, hcH⟩
    have hns_mc1 : ∃ c ∈ (coSuffixSub (pyStrip l)).map pyLower, pyIsSpaceB c = false := by
      rcases hns_c1 with ⟨c, hc, hcf⟩
      exact ⟨pyLower c, List.mem_map_of_mem _ hc, by rw [pyIsSpaceB_pyLower]; exact hcf⟩
    have hns_smc1 : ∃ c ∈ pyStrip ((coSuffixSub (pyStrip l)).map pyLower),
        pyIsSpaceB c = false := by
      rw [pyStrip_map_lower]
      rcases hns_c1 with ⟨c, hc, hcf⟩
      have : cH ∈ pyStrip (coSuffixSub (pyStrip l)) := by
        rw [hc1eq]
        unfold pyStrip
        rw [List.dropWhile_cons]
        simp only [hcH, Bool.false_eq_true, if_false]
        rw [dropTrail_cons_nonspace hcH]
        simp
      exact ⟨pyLower cH, List.mem_map_of_mem _ this, by rw [pyIsSpaceB_pyLower]; exact hcH⟩
    have hhead := pySplit_head?_of_ex hns_smc1
    cases hps : pySplit (pyStrip ((coSuffixSub (pyStrip l)).map pyLower)) with
    | nil => rw [hps] at hhead; simp at hhead
    | cons a r =>
      rw [hps] at hhead
      simp only [List.head?_cons, Option.some.injEq] at hhead
      simp only [List.headD]
      rw [hhead]
      rw [firstWord_pyStrip hns_mc1, firstWord_map_lower]
      have hFWc1 : firstWord (coSuffixSub (pyStrip l)) = firstWord (pyStrip l) := by
        unfold firstWord
        rw [hc1eq, List.dropWhile_cons]
        simp only [hcH, Bool.false_eq_true, if_false]
        rw [hxeq, List.dropWhile_cons]
        simp only [hcH, Bool.false_eq_true, if_false]
        rw [← hc1eq, ← hxeq]
        exact ftOK hwsx
      rw [hFWc1, firstWord_pyStrip hnsl, ← firstWord_map_lower]
  rw [hLHS, hRHS]

/-- C7 witness: the amended agreement applied to a concrete punctuation
free company string. -/
theorem C7_root_witness :
    companyRootOf (S "Gupta Tech Solutions") = some (ncList (S "Gupta Tech Solutions")) :=
  C7_root_amended (S "Gupta Tech Solutions") (by decide) (by decide)

theorem takeWhile_all {q : Nat → Bool} : ∀ {l : List Nat}, (∀ c ∈ l, q c = true) →
    l.takeWhile q = l := by
  intro l
  induction l with
  | nil => intro _; rfl
  | cons c cs ih =>
    intro h
    rw [List.takeWhile_cons, if_pos (h c (by simp))]
    rw [ih (fun d hd => h d (List.mem_cons_of_mem c hd))]

theorem dropWhile_all {q : Nat → Bool} : ∀ {l : List Nat}, (∀ c ∈ l, q c = true) →
    l.dropWhile q = [] := by
  intro l
  induction l with
  | nil => intro _; rfl
  | cons c cs ih =>
    intro h
    rw [List.dropWhile_cons, if_pos (h c (by simp))]
    exact ih (fun d hd => h d (List.mem_cons_of_mem c hd))

theorem map_fix {f : Nat → Nat} : ∀ {l : List Nat}, (∀ c ∈ l, f c = c) → l.map f = l := by
  intro l
  induction l with
  | nil => intro _; rfl
  | cons c cs ih =>
    intro h
    rw [List.map_cons, h c (by simp), ih (fun d hd => h d (List.mem_cons_of_mem c hd))]

theorem pySplit_single {l : List Nat} (hne : l ≠ []) (h : ∀ c ∈ l, pyIsSpaceB c = false) :
    pySplit l = [l] := by
  cases l with
  | nil => exact absurd rfl hne
  | cons c cs =>
    rw [pySplit_cons_not_space (h c (by simp))]
    rw [takeWhile_all (fun d hd => by simp [h d (List.mem_cons_of_mem c hd)])]
    rw [dropWhile_all (fun d hd => by simp [h d (List.mem_cons_of_mem c hd)])]
    rfl

theorem pySplit_head_token {l t : List Nat} (h : (pySplit l).head? = some t) :
    t ≠ [] ∧ ∀ c ∈ t, pyIsSpaceB c = false ∧ c ∈ l := by
  rw [pySplit_head? l] at h
  cases hl : l.dropWhile pyIsSpaceB with
  | nil => rw [hl] at h; simp at h
  | cons c cs =>
    rw [hl] at h
    simp only [Option.some.injEq] at h
    subst h
    refine ⟨by simp, ?_⟩
    intro d hd
    rcases List.mem_cons.mp hd with rfl | hdt
    · refine ⟨dropWhile_head_false l hl, ?_⟩
      have hmem : d ∈ l.dropWhile pyIsSpaceB := by rw [hl]; simp
      exact (List.dropWhile_sublist _).subset hmem
    · constructor
      · have := List.mem_takeWhile_imp hdt
        simpa using this
      · have h1 : d ∈ cs := (List.takeWhile_sublist _).subset hdt
        have h2 : d ∈ l.dropWhile pyIsSpaceB := by rw [hl]; simp [h1]
        exact (List.dropWhile_sublist _).subset h2

theorem ncList_chars {l : List Nat} :
    ∀ c ∈ ncList l, pyIsSpaceB c = false ∧ keepWS c = true ∧ pyLower c = c := by
  intro c hc
  unfold ncList at hc
  by_cases hcs : pyStrip ((coSuffixSub (pyStrip l)).filter keepWS) = []
  · rw [if_pos hcs] at hc
    simp at hc
  · rw [if_neg hcs] at hc
    cases hps : pySplit (pyStrip (((coSuffixSub (pyStrip l)).filter keepWS).map pyLower)) with
    | nil =>
      rw [hps] at hc
      simp [List.headD] at hc
    | cons a r =>
      rw [hps] at hc
      simp only [List.headD] at hc
      have htok := pySplit_head_token
        (show (pySplit (pyStrip (((coSuffixSub (pyStrip l)).filter keepWS).map pyLower))).head? =
          some a by rw [hps]; rfl)
      obtain ⟨hsp, hz⟩ := htok.2 c hc
      refine ⟨hsp, ?_⟩
      rw [pyStrip_map_lower] at hz
      rcases List.mem_map.mp hz with ⟨d, hd, rfl⟩
      have hkd : keepWS d = true := (List.mem_filter.mp (mem_pyStrip hd)).2
      exact ⟨by rw [keepWS_pyLower]; exact hkd, pyLower_idem d⟩

theorem ncList_idem (l : List Nat) : ncList (ncList l) = ncList l := by
  by_cases h : ncList l = []
  · rw [h]
    rfl
  · have hns : ∀ c ∈ ncList l, pyIsSpaceB c = false := fun c hc => (ncList_chars c hc).1
    have hkw : ∀ c ∈ ncList l, keepWS c = true := fun c hc => (ncList_chars c hc).2.1
    have hlo : ∀ c ∈ ncList l, pyLower c = c := fun c hc => (ncList_chars c hc).2.2
    have hstrip : pyStrip (ncList l) = ncList l := pyStrip_of_no_space hns
    have hcss : coSuffixSub (ncList l) = ncList l := coSuffixSub_of_no_space hns
    have hfil : (ncList l).filter keepWS = ncList l := List.filter_eq_self.mpr hkw
    have hmap : (ncList l).map pyLower = ncList l := map_fix hlo
    rw [show ncList (ncList l) =
        (if pyStrip ((coSuffixSub (pyStrip (ncList l))).filter keepWS) = [] then []
         else (pySplit (pyStrip (((coSuffixSub (pyStrip (ncList l))).filter keepWS).map
           pyLower))).headD []) from rfl]
    rw [hstrip, hcss, hfil, hmap, hstrip, if_neg h, pySplit_single h hns]
    rfl

theorem nnList_chars {l : List Nat} :
    ∀ c ∈ nnList l, keepWS c = true ∧ pyLower c = c := by
  intro c hc
  unfold nnList at hc
  simp only at hc
  have h1 := mem_pyStrip hc
  rcases List.mem_map.mp h1 with ⟨d, hd, rfl⟩
  exact ⟨by rw [keepWS_pyLower]; exact (List.mem_filter.mp hd).2, pyLower_idem d⟩

theorem nnList_strip (l : List Nat) : pyStrip (nnList l) = nnList l :=
  pyStrip_idem (((honSub (pyStrip l)).filter keepWS).map pyLower)

/-- C8 counterexample: normalize_name is not idempotent: on the input
"Mr Mr Bean" one application yields "mr bean", whose own normalization
strips the now-leading honorific and yields "bean". -/
theorem C8_idempotence_counterexample :
    nnList (nnList (S "Mr Mr Bean")) ≠ nnList (S "Mr Mr Bean") ∧
    nnList (S "Mr Mr Bean") = S "mr bean" ∧ nnList (S "mr bean") = S "bean" := by
  decide

/-- C8 amended: normalize_company is idempotent on every input, and
normalize_name is idempotent on every input whose normalized form is not
itself matched by the honorific prefix pattern (the counterexample shows
this proviso is necessary: a normalized name may begin with an honorific
word). Both functions are pure by construction. -/
theorem C8_idempotence_amended :
    (∀ l : List Nat, ncList (ncList l) = ncList l) ∧
    (∀ l : List Nat, honSub (nnList l) = nnList l → nnList (nnList l) = nnList l) := by
  refine ⟨ncList_idem, ?_⟩
  intro l hhon
  have hstrip : pyStrip (nnList l) = nnList l := nnList_strip l
  have hfil : (nnList l).filter keepWS = nnList l :=
    List.filter_eq_self.mpr (fun c hc => (nnList_chars c hc).1)
  have hmap : (nnList l).map pyLower = nnList l :=
    map_fix (fun c hc => (nnList_chars c hc).2)
  rw [show nnList (nnList l) =
      pyStrip (((honSub (pyStrip (nnList l))).filter keepWS).map pyLower) from rfl]
  rw [hstrip, hhon, hfil, hmap, hstrip]

/-- C8 witness: the amended idempotence applied to a concrete name whose
normalized form starts with no honorific. -/
theorem C8_idempotence_witness :
    nnList (nnList (S "Prof. Xavier")) = nnList (S "Prof. Xavier") :=
  C8_idempotence_amended.2 (S "Prof. Xavier") (by decide)
